import Mathlib

/-!
# Verification of the Well-Architected review tool's analysis pipeline

Shallow embedding of the pure logic of `streamlit_v1.py`:
* `parse_analysis_results` — parsing the model's markdown table reply into a
  six-pillar result map (lines 68-130 of the source),
* the high-priority item extraction of `display_results` /
  `create_download_link` (lines 155-160 and 192-197),
* `validate_image_size` (lines 29-32) and the size guard in `main`
  (lines 226-231),
* the color-mode dispatch of `convert_to_jpeg` (lines 14-27).

Text is modelled as `List Char`; Python string operations (`str.strip`,
`str.split`, `in`, `str.upper`) are given explicit executable definitions
matching Python's semantics on the ASCII inputs this pipeline handles.
-/

namespace WAR

/-- Python `str.strip()` whitespace set, restricted to ASCII
(`' '`, `\t`, `\n`, `\r`, `\x0b`, `\x0c`). -/
def pyIsSpace (c : Char) : Bool :=
  c = ' ' || c = '\t' || c = '\n' || c = '\r' ||
  c = Char.ofNat 11 || c = Char.ofNat 12

/-- Strip all leading and trailing characters satisfying `p` (the semantics of
Python `str.strip(chars)` with `p` the membership test of `chars`). -/
def stripEnds (p : Char → Bool) (cs : List Char) : List Char :=
  ((cs.dropWhile p).reverse.dropWhile p).reverse

/-- Python `line.strip()` (default whitespace). -/
def pyStrip (cs : List Char) : List Char :=
  stripEnds pyIsSpace cs

/-- Character set of Python `strip('- ')` used on bullet fragments
(source line 107, 108, 110). -/
def isBulletChar (c : Char) : Bool :=
  c = '-' || c = ' '

/-- Python `s.split(c)` for a single-character separator: splits at every
occurrence, keeping empty pieces. -/
def splitOnChar (c : Char) : List Char → List (List Char)
  | [] => [[]]
  | x :: xs =>
    if x = c then [] :: splitOnChar c xs
    else
      match splitOnChar c xs with
      | [] => [[x]]
      | y :: ys => (x :: y) :: ys

/-- Python `s.split('<br>')`: split at every occurrence of the literal
`<br>` marker, left to right, keeping empty pieces. -/
def pySplitBr : List Char → List (List Char)
  | '<' :: 'b' :: 'r' :: '>' :: rest => [] :: pySplitBr rest
  | [] => [[]]
  | x :: xs =>
    match pySplitBr xs with
    | [] => [[x]]
    | y :: ys => (x :: y) :: ys

/-- Python substring containment `needle in hay` (`True` for the empty
needle). -/
def containsSub (needle : List Char) : List Char → Bool
  | [] => needle.isPrefixOf []
  | c :: t => needle.isPrefixOf (c :: t) || containsSub needle t

/-- Python `s.upper()` (ASCII). -/
def pyUpper (cs : List Char) : List Char :=
  cs.map Char.toUpper

/-- One pillar's record: `{'strengths': [], 'risks': [], 'risk_level': '',
'recommendations': []}` (source lines 78-83). -/
structure PillarData where
  strengths : List (List Char)
  risks : List (List Char)
  risk_level : List Char
  recommendations : List (List Char)
deriving Repr, DecidableEq

/-- The empty per-pillar record every pillar starts from. -/
def PillarData.default : PillarData :=
  ⟨[], [], [], []⟩

/-- The six fixed pillar names, in the insertion order of the `results`
dict (source lines 77-84). -/
def knownPillars : List (List Char) :=
  ["Operational Excellence".data, "Security".data, "Reliability".data,
   "Performance Efficiency".data, "Cost Optimization".data,
   "Sustainability".data]

/-- The `results` dict: keys in insertion order, each key paired with its
per-pillar record. -/
abbrev Results : Type :=
  List (List Char × PillarData)

/-- Initial `results` value: all six pillars at their empty defaults. -/
def initResults : Results :=
  knownPillars.map (fun n => (n, PillarData.default))

/-- `results[name] = d` on a dict whose key set never changes: replace the
value at `name`, keep order and all other entries. -/
def setPillar (r : Results) (name : List Char) (d : PillarData) : Results :=
  r.map (fun kv => if kv.1 = name then (kv.1, d) else kv)

/-- Python truthiness test `any(pillar_data.values())` (source line 122):
some field is a non-empty list / non-empty string. -/
def hasContent (d : PillarData) : Bool :=
  d.strengths ≠ [] || d.risks ≠ [] || d.risk_level ≠ [] ||
  d.recommendations ≠ []

/-- Cell normalization of a table row (source lines 97-98):
`parts = [part.strip() for part in line.split('|')]` followed by
`parts = [p for p in parts if p]`. -/
def rowParts (line : List Char) : List (List Char) :=
  ((splitOnChar '|' line).map pyStrip).filter (fun p => p ≠ [])

/-- Per-cell item extraction (source lines 107-116):
`[x.strip('- ') for x in cell.split('<br>')]` then `[x for x in xs if x]`. -/
def codeCellItems (cell : List Char) : List (List Char) :=
  ((pySplitBr cell).map (stripEnds isBulletChar)).filter
    (fun s => s ≠ [])

/-- The inner pillar search (source lines 103-104): first known pillar that
occurs as a substring of the row's first cell (`break` after the first hit). -/
def matchPillar (pillar_name : List Char) : Option (List Char) :=
  knownPillars.find? (fun kp => containsSub kp pillar_name)

/-- The four fields extracted from a matched row's cells
(source lines 107-116). -/
def extractData (parts : List (List Char)) : PillarData :=
  ⟨codeCellItems (parts.getD 1 []), codeCellItems (parts.getD 2 []),
   parts.getD 3 [], codeCellItems (parts.getD 4 [])⟩

/-- Which pillar (if any) a raw line updates, mirroring the guards of the
loop body (source lines 90-104): strip, skip empty lines and `| ---`
separator rows, require a leading `|`, require at least 5 surviving cells,
then match the first cell against the known pillars. -/
def lineMatch (rawLine : List Char) : Option (List Char) :=
  let line := pyStrip rawLine
  if line = [] then none
  else if ("| ---".data).isPrefixOf line then none
  else if ("|".data).isPrefixOf line then
    let parts := rowParts line
    if 5 ≤ parts.length then matchPillar (parts.getD 0 []) else none
  else none

/-- The loop body of `parse_analysis_results` for one line
(source lines 90-117): when the line is a matching data row, overwrite all
four fields of the matched pillar; otherwise leave `results` unchanged. -/
def processLine (r : Results) (rawLine : List Char) : Results :=
  match lineMatch rawLine with
  | some kp => setPillar r kp (extractData (rowParts (pyStrip rawLine)))
  | none => r

/-- `parse_analysis_results` (source lines 68-130): `None` on empty input,
else fold the loop body over the `\n`-split lines and return the results
dict only if some pillar has content. -/
def parse_analysis_results (analysis_text : List Char) : Option Results :=
  if analysis_text = [] then none
  else
    let lines := splitOnChar '\n' analysis_text
    let results := lines.foldl processLine initResults
    if results.any (fun kv => hasContent kv.2) then some results else none

/-- High-priority extraction as `(pillar, recommendation)` pairs: the list
comprehension of `display_results` (lines 155-160) and
`create_download_link` (lines 192-197), whose `if` guard
`details['risk_level'].upper() == 'HIGH'` does not depend on the inner
loop variable, before the `f"{pillar}: {rec}"` formatting. -/
def high_priority_pairs (results : Results) : List (List Char × List Char) :=
  results.flatMap (fun kv =>
    if pyUpper kv.2.risk_level = "HIGH".data then
      kv.2.recommendations.map (fun rec => (kv.1, rec))
    else [])

/-- The formatted high-priority items `f"{pillar}: {rec}"` exactly as the
source comprehensions build them. -/
def high_priority_items (results : Results) : List (List Char) :=
  results.flatMap (fun kv =>
    if pyUpper kv.2.risk_level = "HIGH".data then
      kv.2.recommendations.map (fun rec => kv.1 ++ ": ".data ++ rec)
    else [])

/-! ## Spec-side comparison definitions

These two definitions follow the SPEC's words (not the source) and exist only
to be compared with the source-derived `rowParts` / `codeCellItems`. -/

/-- Drop the leading cell when it is empty (the cell produced by a leading
delimiter). -/
def dropLeadEmpty : List (List Char) → List (List Char)
  | [] :: rest => rest
  | other => other

/-- Drop the trailing cell when it is empty (the cell produced by a trailing
delimiter). -/
def dropTrailEmpty (cells : List (List Char)) : List (List Char) :=
  match cells.getLast? with
  | some [] => cells.dropLast
  | _ => cells

/-- Spec's row normalization, following its words: split on `|`, trim each
cell, then drop only the empty leading/trailing cells produced by the
leading/trailing delimiters; interior empty cells keep their position. -/
def specRowCells (line : List Char) : List (List Char) :=
  dropTrailEmpty (dropLeadEmpty ((splitOnChar '|' line).map pyStrip))

/-- Spec's per-cell item extraction, following its words: split on `<br>`,
trim each fragment, strip exactly one leading bullet marker `"- "` from a
fragment that has one, drop fragments empty after trimming. -/
def specCellItems (cell : List Char) : List (List Char) :=
  ((pySplitBr cell).map (fun frag =>
    let t := pyStrip frag
    if ("- ".data).isPrefixOf t then t.drop 2 else t)).filter
    (fun s => s ≠ [])

/-! ## Exception-explicit variant of the parser

`processLineE` / `parse_analysis_resultsE` mirror `processLine` /
`parse_analysis_results` but perform every cell indexing (`parts[0]` …
`parts[4]`, source lines 101 and 107-110) through `List.get?`, turning an
out-of-range access into an explicit `Except.error` the way Python would
raise `IndexError`. -/

/-- Loop body with explicit index-error propagation for the five cell
accesses. -/
def processLineE (r : Results) (rawLine : List Char) : Except Unit Results :=
  let line := pyStrip rawLine
  if line = [] then .ok r
  else if ("| ---".data).isPrefixOf line then .ok r
  else if ("|".data).isPrefixOf line then
    let parts := rowParts line
    if 5 ≤ parts.length then
      match parts.get? 0 with
      | none => .error ()
      | some p0 =>
        match matchPillar p0 with
        | some kp =>
          match parts.get? 1, parts.get? 2, parts.get? 3, parts.get? 4 with
          | some p1, some p2, some p3, some p4 =>
            .ok (setPillar r kp
              ⟨codeCellItems p1, codeCellItems p2, p3, codeCellItems p4⟩)
          | _, _, _, _ => .error ()
        | none => .ok r
    else .ok r
  else .ok r

/-- `parse_analysis_results` with explicit index-error propagation. -/
def parse_analysis_resultsE (analysis_text : List Char) :
    Except Unit (Option Results) :=
  if analysis_text = [] then .ok none
  else do
    let results ← (splitOnChar '\n' analysis_text).foldlM processLineE
      initResults
    if results.any (fun kv => hasContent kv.2) then return (some results)
    else return none

/-! ## Image handling (`validate_image_size`, `convert_to_jpeg`) -/

/-- `validate_image_size` (source lines 29-32):
`return len(image_bytes) <= MAX_SIZE` with `MAX_SIZE = 5 * 1024 * 1024`. -/
def validate_image_size (image_bytes : List Nat) : Bool :=
  image_bytes.length ≤ 5 * 1024 * 1024

/-- The size guard of `main` (source lines 226-231): reject the original
uploaded bytes before any conversion work happens. -/
def main_size_guard (image_bytes : List Nat) : Except (List Char) Unit :=
  if ¬ validate_image_size image_bytes then
    .error "ImageTooLarge".data
  else .ok ()

/-- PIL color modes relevant to `Image.open` results (PIL documentation:
`1`, `L`, `LA`, `P`, `PA`, `RGB`, `RGBA`, `CMYK`, `YCbCr`, `I`, `F`). -/
inductive PILMode where
  | bilevel | L | LA | P | PA | RGB | RGBA | CMYK | YCbCr | I | F
deriving Repr, DecidableEq

/-- Modes that carry an alpha channel, per the PIL documentation: `RGBA`
(`RGB` with alpha), `LA` (`L` with alpha) and `PA` (`P` with alpha). -/
def PILMode.hasAlphaChannel : PILMode → Bool
  | .RGBA | .LA | .PA => true
  | _ => false

/-- What `convert_to_jpeg` does to an image's color before encoding. -/
inductive AlphaHandling where
  | compositedOnWhite
  | convertedToRGB
  | keptAsIs
deriving Repr, DecidableEq

/-- The mode dispatch of `convert_to_jpeg` (source lines 16-22):
`if image.mode in ('RGBA', 'LA')` paste onto a white `RGB` background,
`elif image.mode != 'RGB'` convert to `RGB`, else keep the image. -/
def convert_to_jpeg_step (m : PILMode) : AlphaHandling :=
  if m = .RGBA ∨ m = .LA then .compositedOnWhite
  else if m ≠ .RGB then .convertedToRGB
  else .keptAsIs

/-- The mode of the image handed to `image.save(..., format='JPEG')`
(source lines 16-26): the white background is created as `RGB`, `convert`
targets `'RGB'`, and the remaining branch requires mode `RGB` already. -/
def convert_to_jpeg_saved_mode (m : PILMode) : PILMode :=
  if m = .RGBA ∨ m = .LA then .RGB
  else if m ≠ .RGB then .RGB
  else m

/-! ## Supporting lemmas -/

theorem splitOnChar_ne_nil (c : Char) (l : List Char) : splitOnChar c l ≠ [] := by
  induction l with
  | nil => simp [splitOnChar]
  | cons x xs ih =>
    simp only [splitOnChar]
    split
    · simp
    · cases h : splitOnChar c xs with
      | nil => simp
      | cons y ys => simp

theorem splitOnChar_append_cons (c : Char) (as bs : List Char) :
    splitOnChar c (as ++ c :: bs) = splitOnChar c as ++ splitOnChar c bs := by
  induction as with
  | nil => simp [splitOnChar]
  | cons x xs ih =>
    by_cases hx : x = c
    · simp [splitOnChar, if_pos hx, ih]
    · cases h : splitOnChar c xs with
      | nil => exact absurd h (splitOnChar_ne_nil c xs)
      | cons y ys => simp [splitOnChar, if_neg hx, ih, h]

theorem splitOnChar_of_not_mem (c : Char) (l : List Char) (h : c ∉ l) :
    splitOnChar c l = [l] := by
  induction l with
  | nil => rfl
  | cons x xs ih =>
    simp only [List.mem_cons, not_or] at h
    simp only [splitOnChar, ih h.2]
    rw [if_neg fun he => h.1 he.symm]

theorem dropWhile_head?_false (p : Char → Bool) (l : List Char) (c : Char)
    (h : (l.dropWhile p).head? = some c) : p c = false := by
  induction l with
  | nil => simp [List.dropWhile] at h
  | cons x xs ih =>
    rw [List.dropWhile_cons] at h
    split at h
    · exact ih h
    · rename_i hp
      simp only [List.head?_cons, Option.some.injEq] at h
      subst h
      cases hpx : p x
      · rfl
      · exact absurd hpx hp

theorem dropWhile_ne_nil_getLast? (p : Char → Bool) (l : List Char)
    (h : l.dropWhile p ≠ []) : (l.dropWhile p).getLast? = l.getLast? := by
  induction l with
  | nil => simp [List.dropWhile] at h
  | cons x xs ih =>
    rw [List.dropWhile_cons] at h ⊢
    by_cases hp : p x = true
    · rw [if_pos hp] at h ⊢
      rw [ih h]
      have hxs : xs ≠ [] := fun h0 => h (by simp [h0, List.dropWhile])
      cases xs with
      | nil => exact absurd rfl hxs
      | cons y ys => rw [List.getLast?_cons_cons]
    · rw [if_neg hp]

theorem stripEnds_decomp (p : Char → Bool) (cs : List Char) :
    ∃ pre suf, (∀ a ∈ pre, p a = true) ∧ (∀ a ∈ suf, p a = true) ∧
      cs = pre ++ stripEnds p cs ++ suf := by
  refine ⟨cs.takeWhile p, ((cs.dropWhile p).reverse.takeWhile p).reverse,
    fun a ha => List.mem_takeWhile_imp ha, ?_, ?_⟩
  · intro a ha
    rw [List.mem_reverse] at ha
    exact List.mem_takeWhile_imp ha
  · conv_lhs => rw [← List.takeWhile_append_dropWhile p cs]
    rw [List.append_assoc]
    congr 1
    have h2 := congrArg List.reverse
      (List.takeWhile_append_dropWhile p (cs.dropWhile p).reverse)
    rw [List.reverse_append, List.reverse_reverse] at h2
    unfold stripEnds
    exact h2.symm

theorem stripEnds_getLast?_false (p : Char → Bool) (cs : List Char) (c : Char)
    (h : (stripEnds p cs).getLast? = some c) : p c = false := by
  unfold stripEnds at h
  rw [List.getLast?_reverse] at h
  exact dropWhile_head?_false p _ c h

theorem stripEnds_head?_false (p : Char → Bool) (cs : List Char) (c : Char)
    (h : (stripEnds p cs).head? = some c) : p c = false := by
  unfold stripEnds at h
  rw [List.head?_reverse] at h
  have hne : (cs.dropWhile p).reverse.dropWhile p ≠ [] := by
    intro h0
    rw [h0] at h
    simp at h
  rw [dropWhile_ne_nil_getLast? p _ hne, List.getLast?_reverse] at h
  exact dropWhile_head?_false p _ c h

theorem setPillar_keys (r : Results) (n : List Char) (d : PillarData) :
    (setPillar r n d).map Prod.fst = r.map Prod.fst := by
  unfold setPillar
  rw [List.map_map]
  apply List.map_congr_left
  intro kv _
  by_cases h : kv.1 = n <;> simp [h]

theorem lookup_setPillar_self (r : Results) (n : List Char) (d : PillarData)
    (h : n ∈ r.map Prod.fst) : (setPillar r n d).lookup n = some d := by
  induction r with
  | nil => simp at h
  | cons kv t ih =>
    simp only [List.map_cons, List.mem_cons] at h
    by_cases hk : kv.1 = n
    · simp [setPillar, hk, List.lookup_cons]
    · have hn : n ∈ t.map Prod.fst := by
        rcases h with h | h
        · exact absurd h.symm hk
        · exact h
      simp only [setPillar, List.map_cons, if_neg hk]
      rw [List.lookup_cons]
      have : (n == kv.1) = false := by
        simp [beq_eq_false_iff_ne]
        exact fun he => hk he.symm
      rw [this]
      exact ih hn

theorem lookup_setPillar_ne (r : Results) (n m : List Char) (d : PillarData)
    (h : m ≠ n) : (setPillar r n d).lookup m = r.lookup m := by
  induction r with
  | nil => rfl
  | cons kv t ih =>
    by_cases hk : kv.1 = n
    · simp only [setPillar, List.map_cons, if_pos hk]
      rw [List.lookup_cons]
      have hmk : (m == kv.1) = false := by
        rw [beq_eq_false_iff_ne]
        exact fun he => h (he.trans hk)
      cases kv with
      | mk k v =>
        simp only at hmk hk
        rw [List.lookup_cons, hmk]
        simpa [setPillar] using ih
    · cases kv with
      | mk k v =>
        simp only [setPillar, List.map_cons, if_neg hk]
        rw [List.lookup_cons, List.lookup_cons]
        cases hmk : m == k
        · simpa [setPillar] using ih
        · rfl

theorem lookup_mem (r : Results) (n : List Char) (d : PillarData)
    (h : r.lookup n = some d) : (n, d) ∈ r := by
  induction r with
  | nil => simp [List.lookup] at h
  | cons kv t ih =>
    cases kv with
    | mk k v =>
      rw [List.lookup_cons] at h
      cases hnk : n == k with
      | true =>
        rw [hnk] at h
        simp only [Option.some.injEq] at h
        have : n = k := by simpa using hnk
        simp [this, ← h]
      | false =>
        rw [hnk] at h
        exact List.mem_cons_of_mem _ (ih h)

theorem processLine_keys (r : Results) (l : List Char) :
    (processLine r l).map Prod.fst = r.map Prod.fst := by
  unfold processLine
  cases lineMatch l with
  | none => rfl
  | some kp => exact setPillar_keys r kp _

theorem foldl_processLine_keys (ls : List (List Char)) (r : Results) :
    (ls.foldl processLine r).map Prod.fst = r.map Prod.fst := by
  induction ls generalizing r with
  | nil => rfl
  | cons x xs ih => rw [List.foldl_cons, ih, processLine_keys]

theorem lineMatch_eq_some (l : List Char) (kp : List Char)
    (h : lineMatch l = some kp) :
    5 ≤ (rowParts (pyStrip l)).length ∧
    matchPillar ((rowParts (pyStrip l)).getD 0 []) = some kp ∧
    kp ∈ knownPillars := by
  simp only [lineMatch] at h
  split at h
  · simp at h
  · split at h
    · simp at h
    · split at h
      · split at h
        · rename_i hlen
          exact ⟨hlen, h, List.mem_of_find?_eq_some h⟩
        · simp at h
      · simp at h

theorem processLine_of_match (r : Results) (l : List Char) (kp : List Char)
    (h : lineMatch l = some kp) :
    processLine r l = setPillar r kp (extractData (rowParts (pyStrip l))) := by
  unfold processLine
  rw [h]

theorem lookup_processLine_of_ne (r : Results) (l : List Char) (kp : List Char)
    (h : lineMatch l ≠ some kp) :
    (processLine r l).lookup kp = r.lookup kp := by
  unfold processLine
  cases hm : lineMatch l with
  | none => rfl
  | some kp2 =>
    have hne : kp ≠ kp2 := fun he => h (he ▸ hm)
    exact lookup_setPillar_ne _ _ _ _ hne

theorem lookup_foldl_of_ne (ls : List (List Char)) (r : Results) (kp : List Char)
    (h : ∀ l ∈ ls, lineMatch l ≠ some kp) :
    (ls.foldl processLine r).lookup kp = r.lookup kp := by
  induction ls generalizing r with
  | nil => rfl
  | cons x xs ih =>
    rw [List.foldl_cons, ih _ (fun l hl => h l (List.mem_cons_of_mem _ hl)),
      lookup_processLine_of_ne _ _ _ (h x (List.mem_cons_self x xs))]

theorem foldl_processLine_of_none (ls : List (List Char)) (r : Results)
    (h : ∀ l ∈ ls, lineMatch l = none) : ls.foldl processLine r = r := by
  induction ls generalizing r with
  | nil => rfl
  | cons x xs ih =>
    rw [List.foldl_cons]
    have hx : processLine r x = r := by
      unfold processLine
      rw [h x (List.mem_cons_self x xs)]
    rw [hx]
    exact ih r fun l hl => h l (List.mem_cons_of_mem _ hl)

theorem rowParts_mem_ne_nil (l : List Char) : ∀ x ∈ rowParts l, x ≠ [] := by
  intro x hx
  unfold rowParts at hx
  simpa using (List.mem_filter.mp hx).2

theorem filter_dropLeadEmpty (cells : List (List Char)) :
    (dropLeadEmpty cells).filter (fun p => p ≠ []) =
    cells.filter (fun p => p ≠ []) := by
  cases cells with
  | nil => rfl
  | cons x rest =>
    cases x with
    | nil => simp [dropLeadEmpty]
    | cons c cs => rfl

theorem filter_dropTrailEmpty (cells : List (List Char)) :
    (dropTrailEmpty cells).filter (fun p => p ≠ []) =
    cells.filter (fun p => p ≠ []) := by
  unfold dropTrailEmpty
  split
  · rename_i hlast
    have hsplit := List.dropLast_append_getLast? (l := cells) []
      (by rw [Option.mem_def, hlast])
    conv_rhs => rw [← hsplit]
    simp [List.filter_append]
  · rfl

theorem filter_specRowCells (line : List Char) :
    (specRowCells line).filter (fun p => p ≠ []) = rowParts line := by
  unfold specRowCells rowParts
  rw [filter_dropTrailEmpty, filter_dropLeadEmpty]

theorem extractData_risk_level_ne_nil (parts : List (List Char))
    (hlen : 5 ≤ parts.length) (hfil : ∀ x ∈ parts, x ≠ []) :
    (extractData parts).risk_level ≠ [] := by
  have h3 : 3 < parts.length := by omega
  show parts.getD 3 [] ≠ []
  rw [List.getD_eq_getElem _ _ h3]
  exact hfil _ (List.getElem_mem h3)

theorem getElem?_eq_some_getD (l : List (List Char)) (i : Nat)
    (h : i < l.length) : l[i]? = some (l.getD i []) := by
  rw [List.getElem?_eq_getElem h, List.getD_eq_getElem _ _ h]

theorem processLineE_eq_ok (r : Results) (l : List Char) :
    processLineE r l = Except.ok (processLine r l) := by
  simp only [processLineE, processLine, lineMatch]
  by_cases h1 : pyStrip l = []
  · simp [h1]
  · by_cases h2 : ("| ---".data).isPrefixOf (pyStrip l)
    · simp [h1, h2]
    · by_cases h3 : ("|".data).isPrefixOf (pyStrip l)
      · by_cases h4 : 5 ≤ (rowParts (pyStrip l)).length
        · have e0 := getElem?_eq_some_getD (rowParts (pyStrip l)) 0 (by omega)
          have e1 := getElem?_eq_some_getD (rowParts (pyStrip l)) 1 (by omega)
          have e2 := getElem?_eq_some_getD (rowParts (pyStrip l)) 2 (by omega)
          have e3 := getElem?_eq_some_getD (rowParts (pyStrip l)) 3 (by omega)
          have e4 := getElem?_eq_some_getD (rowParts (pyStrip l)) 4 (by omega)
          simp only [if_neg h1, if_neg h2, if_pos h3, if_pos h4,
            List.get?_eq_getElem?, e0, e1, e2, e3, e4]
          cases matchPillar ((rowParts (pyStrip l)).getD 0 []) with
          | none => rfl
          | some kp => simp [extractData]
        · simp [h1, h2, h3, h4]
      · simp [h1, h2, h3]

theorem foldlM_processLineE (ls : List (List Char)) (r : Results) :
    List.foldlM processLineE r ls = Except.ok (ls.foldl processLine r) := by
  induction ls generalizing r with
  | nil => rfl
  | cons x xs ih =>
    rw [List.foldlM_cons, processLineE_eq_ok, List.foldl_cons]
    exact ih (processLine r x)

/-! ## Claim theorems -/

/-- Input of the spec's end-to-end example: the Security table row. -/
def c1Text : List Char :=
  "| Security | Uses IAM roles<br>- Encrypted at rest | No MFA enforced | High | Enable MFA<br>- Rotate keys |".data

/-- C1: parsing a text containing the example Security row yields, for the
Security pillar, strengths `["Uses IAM roles", "Encrypted at rest"]`, risks
`["No MFA enforced"]`, risk level `"High"`, recommendations
`["Enable MFA", "Rotate keys"]`, and the high-priority extraction over the
parsed result is exactly the pairs `("Security", "Enable MFA")` and
`("Security", "Rotate keys")`. -/
theorem C1_security_row_end_to_end :
    (parse_analysis_results c1Text).map
      (fun r => (r.lookup "Security".data, high_priority_pairs r)) =
    some (some
      ⟨["Uses IAM roles".data, "Encrypted at rest".data],
       ["No MFA enforced".data], "High".data,
       ["Enable MFA".data, "Rotate keys".data]⟩,
      [("Security".data, "Enable MFA".data),
       ("Security".data, "Rotate keys".data)]) := by
  decide

/-- Row with an interior empty cell: `| Security || extra | a | b | c |`. -/
def c2Line : List Char := "| Security || extra | a | b | c |".data

/-- C2 counterexample: the code's normalization (`rowParts`) drops the
interior empty cell as well, so it differs from the claim's normalization
(`specRowCells`), under which interior empty cells keep their position. -/
theorem C2_counterexample :
    rowParts c2Line =
      ["Security".data, "extra".data, "a".data, "b".data, "c".data] ∧
    specRowCells c2Line =
      ["Security".data, [], "extra".data, "a".data, "b".data, "c".data] ∧
    rowParts c2Line ≠ specRowCells c2Line := by
  decide

/-- C2 (amended): the parser drops ALL empty cells — leading, trailing and
interior alike, so interior empty cells do not keep their position; the
surviving cells are exactly the non-empty trimmed cells in order, the
candidate threshold counts the non-empty cells, and rows with fewer than 5
surviving cells are ignored. -/
theorem C2_row_normalization_amended :
    ∀ line : List Char,
      rowParts line = (specRowCells line).filter (fun p => p ≠ []) ∧
      (∀ x ∈ rowParts line, x ≠ []) ∧
      (rowParts line).length =
        ((splitOnChar '|' line).map pyStrip).countP (fun p => p ≠ []) ∧
      (∀ r : Results, (rowParts (pyStrip line)).length < 5 →
        processLine r line = r) := by
  intro line
  refine ⟨(filter_specRowCells line).symm, rowParts_mem_ne_nil line, ?_, ?_⟩
  · rw [List.countP_eq_length_filter]
    rfl
  · intro r hlt
    unfold processLine
    cases hm : lineMatch line with
    | none => rfl
    | some kp =>
      have := (lineMatch_eq_some line kp hm).1
      omega

/-- C2 witness: the amended statement at concrete rows — a short row is
ignored, and the normalization of a row with an interior empty cell equals
the spec-side cells filtered of all empties. -/
theorem C2_amended_witness :
    processLine initResults "| too | short |".data = initResults ∧
    rowParts "| a || b | c | d | e |".data =
      (specRowCells "| a || b | c | d | e |".data).filter
        (fun p => p ≠ []) :=
  ⟨(C2_row_normalization_amended "| too | short |".data).2.2.2 initResults
      (by decide),
   (C2_row_normalization_amended "| a || b | c | d | e |".data).1⟩

/-- Cell whose fragment starts with a bullet dash but no following space. -/
def c3Cell : List Char := "-Uses IAM roles".data

/-- C3 counterexample: the code strips `-`/` ` characters from BOTH ends and
regardless of a following space (`str.strip('- ')`), so on the fragment
`-Uses IAM roles` it produces `Uses IAM roles`, while the claim's
strip-exactly-one-leading-`"- "` rule would keep `-Uses IAM roles`. -/
theorem C3_counterexample :
    codeCellItems c3Cell = ["Uses IAM roles".data] ∧
    specCellItems c3Cell = ["-Uses IAM roles".data] ∧
    codeCellItems c3Cell ≠ specCellItems c3Cell := by
  decide

/-- C3 (amended): each fragment of the `<br>`-split has ALL leading and
trailing characters in `{'-', ' '}` removed (Python `strip('- ')`), empty
results are dropped, and fragment order is preserved: every produced item is
non-empty, begins and ends with a character outside `{'-', ' '}`, and is
obtained from some fragment by removing a prefix and a suffix of
`{'-', ' '}` characters. -/
theorem C3_cell_items_amended :
    ∀ cell : List Char,
      codeCellItems cell =
        ((pySplitBr cell).map (stripEnds isBulletChar)).filter
          (fun s => s ≠ []) ∧
      List.Sublist (codeCellItems cell)
        ((pySplitBr cell).map (stripEnds isBulletChar)) ∧
      (∀ x ∈ codeCellItems cell,
        x ≠ [] ∧
        (∀ c, x.head? = some c → isBulletChar c = false) ∧
        (∀ c, x.getLast? = some c → isBulletChar c = false) ∧
        ∃ frag ∈ pySplitBr cell, ∃ pre suf,
          (∀ a ∈ pre, isBulletChar a = true) ∧
          (∀ a ∈ suf, isBulletChar a = true) ∧
          frag = pre ++ x ++ suf) := by
  intro cell
  refine ⟨rfl, List.filter_sublist _, ?_⟩
  intro x hx
  unfold codeCellItems at hx
  have hmem := List.mem_filter.mp hx
  have hnn : x ≠ [] := by simpa using hmem.2
  obtain ⟨frag, hfrag, hfx⟩ := List.mem_map.mp hmem.1
  refine ⟨hnn, ?_, ?_, frag, hfrag, ?_⟩
  · intro c hc
    exact stripEnds_head?_false isBulletChar frag c (by rw [hfx]; exact hc)
  · intro c hc
    exact stripEnds_getLast?_false isBulletChar frag c (by rw [hfx]; exact hc)
  · obtain ⟨pre, suf, hp, hs, hdec⟩ := stripEnds_decomp isBulletChar frag
    exact ⟨pre, suf, hp, hs, by rw [hdec, hfx]⟩

/-- C3 witness: the amended statement applied to the concrete cell
`- a<br>b -`, whose first produced item is `a`. -/
theorem C3_amended_witness :
    "a".data ≠ [] ∧
    (∀ c, "a".data.head? = some c → isBulletChar c = false) ∧
    (∀ c, "a".data.getLast? = some c → isBulletChar c = false) ∧
    ∃ frag ∈ pySplitBr "- a<br>b -".data, ∃ pre suf,
      (∀ a ∈ pre, isBulletChar a = true) ∧
      (∀ a ∈ suf, isBulletChar a = true) ∧
      frag = pre ++ "a".data ++ suf :=
  (C3_cell_items_amended "- a<br>b -".data).2.2 "a".data (by decide)

/-- C4: when no table row's first cell contains any of the six pillar names,
parsing returns the absence value `none`; and a parsed result is returned
only when at least one pillar ended up with a non-empty field. -/
theorem C4_no_recognized_content :
    (∀ text : List Char,
      (∀ line ∈ splitOnChar '\n' text,
        ("|".data).isPrefixOf (pyStrip line) →
        matchPillar ((rowParts (pyStrip line)).getD 0 []) = none) →
      parse_analysis_results text = none) ∧
    (∀ (text : List Char) (r : Results),
      parse_analysis_results text = some r →
      r.any (fun kv => hasContent kv.2) = true) := by
  constructor
  · intro text h
    simp only [parse_analysis_results]
    split
    · rfl
    · have hnone : ∀ line ∈ splitOnChar '\n' text, lineMatch line = none := by
        intro line hl
        simp only [lineMatch]
        split
        · rfl
        · split
          · rfl
          · split
            · rename_i h1 h2 h3
              split
              · exact h line hl h3
              · rfl
            · rfl
      rw [foldl_processLine_of_none _ _ hnone]
      have hini : (initResults.any fun kv => hasContent kv.2) = false := by
        decide
      rw [hini]
      rfl
  · intro text r h
    simp only [parse_analysis_results] at h
    split at h
    · simp at h
    · split at h
      · rename_i hany
        simp only [Option.some.injEq] at h
        rw [← h]
        exact hany
      · simp at h

/-- Plain prose input for the C4 witness. -/
def c4ProseText : List Char := "The diagram shows a typical web stack.".data

/-- Single-row input whose parse fills the Security pillar. -/
def sampleText : List Char := "| Security | a | b | High | c |".data

/-- The full six-pillar result of parsing `sampleText`. -/
def sampleResult : Results :=
  [("Operational Excellence".data, PillarData.default),
   ("Security".data, ⟨["a".data], ["b".data], "High".data, ["c".data]⟩),
   ("Reliability".data, PillarData.default),
   ("Performance Efficiency".data, PillarData.default),
   ("Cost Optimization".data, PillarData.default),
   ("Sustainability".data, PillarData.default)]

/-- C4 witness: the theorem applied at a prose-only input (parse fails with
`none`) and at a parsed result (some pillar has content). -/
theorem C4_witness :
    parse_analysis_results c4ProseText = none ∧
    sampleResult.any (fun kv => hasContent kv.2) = true :=
  ⟨C4_no_recognized_content.1 c4ProseText (by decide),
   C4_no_recognized_content.2 sampleText sampleResult (by decide)⟩

/-- C5: the last data row matching a pillar fully determines all four of
that pillar's fields — whatever any earlier rows (in `pre`) assigned to the
same pillar is completely replaced, and later non-matching lines (`suf`)
leave it untouched. -/
theorem C5_last_row_wins :
    ∀ pre row suf kp : List Char,
      '\n' ∉ row →
      lineMatch row = some kp →
      (∀ line ∈ splitOnChar '\n' suf, lineMatch line ≠ some kp) →
      ∃ r, parse_analysis_results (pre ++ '\n' :: (row ++ '\n' :: suf)) =
          some r ∧
        r.lookup kp = some (extractData (rowParts (pyStrip row))) := by
  intro pre row suf kp hrow hm hsuf
  obtain ⟨hlen, hmp, hkp⟩ := lineMatch_eq_some row kp hm
  have hsplit : splitOnChar '\n' (pre ++ '\n' :: (row ++ '\n' :: suf)) =
      splitOnChar '\n' pre ++ [row] ++ splitOnChar '\n' suf := by
    rw [splitOnChar_append_cons, splitOnChar_append_cons,
      splitOnChar_of_not_mem _ _ hrow]
    simp
  have htne : pre ++ '\n' :: (row ++ '\n' :: suf) ≠ [] := by simp
  have hfold :
      (splitOnChar '\n' (pre ++ '\n' :: (row ++ '\n' :: suf))).foldl
        processLine initResults =
      (splitOnChar '\n' suf).foldl processLine
        (processLine
          ((splitOnChar '\n' pre).foldl processLine initResults) row) := by
    rw [hsplit, List.foldl_append, List.foldl_append]
    rfl
  have hkeys :
      ((splitOnChar '\n' pre).foldl processLine initResults).map Prod.fst =
      knownPillars := by
    rw [foldl_processLine_keys]
    simp [initResults, Function.comp_def]
  have hlook1 :
      (processLine
        ((splitOnChar '\n' pre).foldl processLine initResults) row).lookup
        kp = some (extractData (rowParts (pyStrip row))) := by
    rw [processLine_of_match _ _ _ hm]
    exact lookup_setPillar_self _ _ _ (by rw [hkeys]; exact hkp)
  have hlook :
      ((splitOnChar '\n' (pre ++ '\n' :: (row ++ '\n' :: suf))).foldl
        processLine initResults).lookup kp =
      some (extractData (rowParts (pyStrip row))) := by
    rw [hfold, lookup_foldl_of_ne _ _ _ hsuf, hlook1]
  have hrl : (extractData (rowParts (pyStrip row))).risk_level ≠ [] :=
    extractData_risk_level_ne_nil _ hlen (rowParts_mem_ne_nil _)
  have hany :
      ((splitOnChar '\n' (pre ++ '\n' :: (row ++ '\n' :: suf))).foldl
        processLine initResults).any (fun kv => hasContent kv.2) = true := by
    rw [List.any_eq_true]
    exact ⟨_, lookup_mem _ _ _ hlook, by simp [hasContent, hrl]⟩
  refine ⟨_, ?_, hlook⟩
  simp only [parse_analysis_results]
  rw [if_neg htne, if_pos hany]

/-- Earlier Security row for the C5 witness. -/
def c5EarlierRow : List Char := "| Security | old1 | old2 | Low | old3 |".data

/-- Later Security row for the C5 witness. -/
def c5LaterRow : List Char := "| Security | new1 | new2 | High | new3 |".data

/-- C5 witness: two Security rows; the theorem applied with the earlier row
as prefix shows the later row's extracted fields are what the pillar holds. -/
theorem C5_witness :
    ∃ r, parse_analysis_results
        (c5EarlierRow ++ '\n' :: (c5LaterRow ++ '\n' :: [])) = some r ∧
      r.lookup "Security".data =
        some (extractData (rowParts (pyStrip c5LaterRow))) :=
  C5_last_row_wins c5EarlierRow c5LaterRow [] "Security".data (by decide)
    (by decide) (by decide)

/-- C6: membership in the high-priority extraction is exactly: the pillar's
stored risk-level string uppercases to `"HIGH"` and the recommendation is one
of that pillar's recommendations; the extraction is empty when no pillar's
risk level matches; and the displayed items are exactly the formatted
`pillar: rec` strings of those pairs. -/
theorem C6_high_priority_characterization :
    ∀ (r : Results) (p rec : List Char),
      ((p, rec) ∈ high_priority_pairs r ↔
        ∃ d : PillarData, (p, d) ∈ r ∧
          pyUpper d.risk_level = "HIGH".data ∧ rec ∈ d.recommendations) ∧
      ((∀ kv ∈ r, pyUpper (PillarData.risk_level kv.2) ≠ "HIGH".data) →
        high_priority_pairs r = []) ∧
      high_priority_items r =
        (high_priority_pairs r).map (fun pr => pr.1 ++ ": ".data ++ pr.2) := by
  intro r p rec
  refine ⟨?_, ?_, ?_⟩
  · unfold high_priority_pairs
    rw [List.mem_flatMap]
    constructor
    · rintro ⟨kv, hkv, hmem⟩
      by_cases hc : pyUpper kv.2.risk_level = "HIGH".data
      · rw [if_pos hc] at hmem
        obtain ⟨rec', hrec', heq⟩ := List.mem_map.mp hmem
        have h1 : kv.1 = p := congrArg Prod.fst heq
        have h2 : rec' = rec := congrArg Prod.snd heq
        refine ⟨kv.2, ?_, hc, h2 ▸ hrec'⟩
        rw [← h1, Prod.mk.eta]
        exact hkv
      · rw [if_neg hc] at hmem
        simp at hmem
    · rintro ⟨d, hd, hc, hrec⟩
      refine ⟨(p, d), hd, ?_⟩
      rw [if_pos hc]
      exact List.mem_map.mpr ⟨rec, hrec, rfl⟩
  · intro h
    unfold high_priority_pairs
    rw [List.flatMap_eq_nil_iff]
    intro kv hkv
    rw [if_neg (h kv hkv)]
  · unfold high_priority_items high_priority_pairs
    rw [List.map_flatMap]
    induction r with
    | nil => rfl
    | cons kv t ih =>
      simp only [List.flatMap_cons, ih]
      congr 1
      by_cases hc : pyUpper kv.2.risk_level = "HIGH".data
      · rw [if_pos hc, if_pos hc, List.map_map]
        rfl
      · rw [if_neg hc, if_neg hc]
        rfl

/-- C6 witness: the theorem applied at concrete results — a lone `Low`
pillar yields an empty extraction, and a lowercase `high` risk level admits
its recommendation. -/
theorem C6_witness :
    high_priority_pairs [("Security".data,
        (⟨[], [], "Low".data, ["x".data]⟩ : PillarData))] = [] ∧
    ("Security".data, "fix".data) ∈ high_priority_pairs
      [("Security".data,
        (⟨[], [], "high".data, ["fix".data]⟩ : PillarData))] :=
  ⟨(C6_high_priority_characterization _ [] []).2.1 (by decide),
   ((C6_high_priority_characterization _ "Security".data "fix".data).1).mpr
     ⟨⟨[], [], "high".data, ["fix".data]⟩, by decide, by decide, by decide⟩⟩

/-- C7: whenever parsing returns a result, its key list is exactly the six
known pillars, in order — never more, never fewer, regardless of the
input. -/
theorem C7_key_set_invariant :
    ∀ (text : List Char) (r : Results),
      parse_analysis_results text = some r →
      r.map Prod.fst = knownPillars := by
  intro text r h
  simp only [parse_analysis_results] at h
  split at h
  · simp at h
  · split at h
    · simp only [Option.some.injEq] at h
      rw [← h, foldl_processLine_keys]
      simp [initResults, Function.comp_def]
    · simp at h

/-- C7 witness: the theorem applied to the parsed sample input. -/
theorem C7_witness : sampleResult.map Prod.fst = knownPillars :=
  C7_key_set_invariant sampleText sampleResult (by decide)

/-- C8: the size validation on the original uploaded bytes accepts exactly
the inputs of at most 5 MiB (5 * 1024 * 1024 bytes) — the boundary size is
accepted — and `main`'s guard rejects precisely the larger ones with the
image-too-large failure. -/
theorem C8_size_validation :
    ∀ image_bytes : List Nat,
      (5 * 1024 * 1024 < image_bytes.length →
        validate_image_size image_bytes = false ∧
        main_size_guard image_bytes = Except.error "ImageTooLarge".data) ∧
      (image_bytes.length ≤ 5 * 1024 * 1024 →
        validate_image_size image_bytes = true ∧
        main_size_guard image_bytes = Except.ok ()) := by
  intro image_bytes
  constructor
  · intro h
    have hv : validate_image_size image_bytes = false := by
      simp only [validate_image_size, decide_eq_false_iff_not]
      omega
    exact ⟨hv, by simp [main_size_guard, hv]⟩
  · intro h
    have hv : validate_image_size image_bytes = true := by
      simp only [validate_image_size, decide_eq_true_eq]
      omega
    exact ⟨hv, by simp [main_size_guard, hv]⟩

/-- C8 witness: the theorem applied at the exact 5 MiB boundary (accepted)
and one byte above it (rejected). -/
theorem C8_witness :
    validate_image_size (List.replicate (5 * 1024 * 1024) 0) = true ∧
    main_size_guard (List.replicate (5 * 1024 * 1024) 0) = Except.ok () ∧
    validate_image_size (List.replicate (5 * 1024 * 1024 + 1) 0) = false :=
  ⟨((C8_size_validation (List.replicate (5 * 1024 * 1024) 0)).2
      (by rw [List.length_replicate])).1,
   ((C8_size_validation (List.replicate (5 * 1024 * 1024) 0)).2
      (by rw [List.length_replicate])).2,
   ((C8_size_validation (List.replicate (5 * 1024 * 1024 + 1) 0)).1
      (by rw [List.length_replicate]; exact Nat.lt_succ_self _)).1⟩

/-- C9 counterexample: PIL's `PA` mode (palette with alpha) carries an alpha
channel, but `convert_to_jpeg` composites only modes `RGBA` and `LA` onto
the white background; a `PA` image takes the plain `convert('RGB')` branch
instead. -/
theorem C9_counterexample :
    PILMode.hasAlphaChannel .PA = true ∧
    convert_to_jpeg_step .PA ≠ .compositedOnWhite ∧
    convert_to_jpeg_step .PA = .convertedToRGB := by
  decide

/-- C9 (amended): exactly the modes `RGBA` and `LA` are composited onto the
opaque white background; every other non-`RGB` mode (including the alpha
mode `PA`) is converted to `RGB` directly; and the image handed to the JPEG
encoder always has mode `RGB`. -/
theorem C9_color_mode_amended :
    ∀ m : PILMode,
      (convert_to_jpeg_step m = .compositedOnWhite ↔
        (m = .RGBA ∨ m = .LA)) ∧
      (m ≠ .RGBA → m ≠ .LA → m ≠ .RGB →
        convert_to_jpeg_step m = .convertedToRGB) ∧
      convert_to_jpeg_saved_mode m = .RGB := by
  intro m
  cases m <;> simp [convert_to_jpeg_step, convert_to_jpeg_saved_mode]

/-- C9 witness: the amended statement applied at mode `P`. -/
theorem C9_witness :
    convert_to_jpeg_step PILMode.P = AlphaHandling.convertedToRGB :=
  (C9_color_mode_amended PILMode.P).2.1 (by decide) (by decide) (by decide)

/-- C10: for every input text the parser's cell indexing is fully guarded —
the exception-explicit variant never reaches an index error and agrees with
the total parser, which signals unparseable input only by returning
`none`. -/
theorem C10_no_exception :
    ∀ text : List Char,
      parse_analysis_resultsE text = Except.ok (parse_analysis_results text) := by
  intro text
  simp only [parse_analysis_resultsE, parse_analysis_results]
  split
  · rfl
  · rw [foldlM_processLineE]
    show (if (List.foldl processLine initResults
          (splitOnChar '\n' text)).any (fun kv => hasContent kv.2) = true then
        pure (some (List.foldl processLine initResults
          (splitOnChar '\n' text)))
      else pure none : Except Unit (Option Results)) = _
    split <;> rfl

end WAR
